import Mathlib

/-
Verification of the text-layout core of RepoToImage (src/main.py).

Modelling conventions:
* Python strings are modelled as `List Char`; Python `float` arithmetic is
  modelled by exact rationals `ℚ` (all concrete comparisons appearing in the
  claims are far from the rounding granularity of IEEE doubles).
* The `while True` loop of `calculate_optimal_columns` is modelled with an
  explicit fuel parameter; running out of fuel yields `none`, a normal return
  yields `some (Except.ok _)` and a Python exception / fatal exit yields
  `some (Except.error _)`.
* `math.ceil(lines_count / c)` on nonnegative integers is the ceiling
  division `(lines_count + c - 1) / c`.
-/

/-- Error outcomes of `calculate_optimal_columns` (src/main.py:130-168):
`invalidDimensions` models the fatal `exit(1)` on non-positive dimensions,
`zeroDivisionError` models the Python `ZeroDivisionError` raised by
`total_width / total_height` when `total_height == 0`. -/
inductive CalcError where
  | invalidDimensions : CalcError
  | zeroDivisionError : CalcError
deriving DecidableEq

instance : DecidableEq (Except CalcError ℕ) := fun a b =>
  match a, b with
  | Except.ok x, Except.ok y =>
      if hxy : x = y then isTrue (by rw [hxy]) else
        isFalse (fun hc => by injection hc; contradiction)
  | Except.error e, Except.error f =>
      if hef : e = f then isTrue (by rw [hef]) else
        isFalse (fun hc => by injection hc; contradiction)
  | Except.ok _, Except.error _ => isFalse (fun hc => Except.noConfusion hc)
  | Except.error _, Except.ok _ => isFalse (fun hc => Except.noConfusion hc)

/-- Python's built-in `abs` on the (exactly modelled) float values. -/
def pyAbs (q : ℚ) : ℚ := if q < 0 then -q else q

/-- Module constant `TARGET_ASPECT_RATIO = 1` of src/main.py:12. -/
def targetAspectRatio : ℚ := 1

/-- Module constant `IMAGE_PADDING = 10` of src/main.py:9. -/
def imagePadding : ℚ := 10

/-- Module constant `LINE_CHAR_LIMIT = 150` of src/main.py:10. -/
def lineCharLimit : ℕ := 150

/-- `lines_per_column = ceil(lines_count / current_tested_columns)`
(src/main.py:151 and src/main.py:105), as exact ceiling division. -/
def linesPerColumn (linesCount c : ℕ) : ℕ := (linesCount + c - 1) / c

/-- `total_width = current_tested_columns * line_width` (src/main.py:147). -/
def candWidth (w : ℚ) (c : ℕ) : ℚ := (c : ℚ) * w

/-- `total_height = lines_per_column * line_height` (src/main.py:154). -/
def candHeight (h : ℚ) (n c : ℕ) : ℚ := ((linesPerColumn n c : ℕ) : ℚ) * h

/-- `current_aspect_ratio = total_width / total_height` (src/main.py:157). -/
def candRatio (w h : ℚ) (n c : ℕ) : ℚ := candWidth w c / candHeight h n c

/-- `difference = abs(current_aspect_ratio - TARGET_ASPECT_RATIO)`
(src/main.py:160), with the target ratio kept as a parameter `t`. -/
def candDiff (w h t : ℚ) (n c : ℕ) : ℚ := pyAbs (candRatio w h n c - t)

/-- `difference < best_difference_from_target` (src/main.py:163), where
`none` models the initial `float('inf')` (any finite value is below it). -/
def ltBest (d : ℚ) : Option ℚ → Prop
  | none => True
  | some b => d < b

instance (d : ℚ) : (o : Option ℚ) → Decidable (ltBest d o)
  | none => isTrue trivial
  | some b => inferInstanceAs (Decidable (d < b))

/-- The `while True` loop of `calculate_optimal_columns` (src/main.py:144-168).
State: `best` = `best_columns`, `bestDiff` = `best_difference_from_target`
(`none` = `float('inf')`), `current` = `current_tested_columns`.  Each fuel
unit runs one iteration, testing candidate `current + 1`: if its height is
zero the division raises `ZeroDivisionError`; if its difference strictly
improves, both trackers are updated and the loop continues, otherwise the
best candidate so far is returned. -/
def calcLoop (w h : ℚ) (n : ℕ) (t : ℚ) :
    ℕ → ℕ → Option ℚ → ℕ → Option (Except CalcError ℕ)
  | 0, _, _, _ => none
  | fuel + 1, best, bestDiff, current =>
      if candHeight h n (current + 1) = 0 then
        some (Except.error CalcError.zeroDivisionError)
      else if ltBest (candDiff w h t n (current + 1)) bestDiff then
        calcLoop w h n t fuel (current + 1)
          (some (candDiff w h t n (current + 1))) (current + 1)
      else some (Except.ok best)

/-- `calculate_optimal_columns` (src/main.py:130-168) with the target aspect
ratio as an explicit parameter `t`: the guard on non-positive dimensions
(src/main.py:135-137) followed by the candidate loop started from
`best_columns = 0`, `best_difference_from_target = inf`,
`current_tested_columns = 0`. -/
def calcOptimalColumnsT (w h : ℚ) (n : ℕ) (t : ℚ) (fuel : ℕ) :
    Option (Except CalcError ℕ) :=
  if h ≤ 0 ∨ w ≤ 0 then some (Except.error CalcError.invalidDimensions)
  else calcLoop w h n t fuel 0 none 0

/-- `calculate_optimal_columns(line_width, line_height, lines_count)`
(src/main.py:130-168) with the module constant `TARGET_ASPECT_RATIO = 1`. -/
def calculate_optimal_columns (w h : ℚ) (n fuel : ℕ) :
    Option (Except CalcError ℕ) :=
  calcOptimalColumnsT w h n targetAspectRatio fuel

/-
Line wrapping (src/main.py:95-102).  `text.split('\n')` is modelled by
`splitOnNl`; the call `textwrap.wrap(line, width=LINE_CHAR_LIMIT)` is a
Python standard-library function (not part of src/), modelled here by
`textwrap_wrap` after its documented default behaviour
(`expand_tabs`/`replace_whitespace` collapse whitespace characters,
`wordsep` chunking, greedy filling, `drop_whitespace=True`,
`break_long_words=True`; the hyphen-splitting refinement of the default word
separator, which only adds extra break opportunities, is not modelled, and
tab expansion is modelled as plain whitespace replacement).  The outer chunk
loop is given explicit fuel; every property proved below holds for every
fuel value.
-/

/-- The whitespace characters of Python's `textwrap` (`'\t\n\x0b\x0c\r '`). -/
def isPySpace (c : Char) : Bool :=
  c == ' ' || c == '\t' || c == '\n' || c == '\x0b' || c == '\x0c' || c == '\r'

/-- `replace_whitespace` (after tab expansion): every whitespace character
becomes a single space. -/
def normalizeWs (l : List Char) : List Char :=
  l.map (fun c => if isPySpace c then ' ' else c)

/-- Splits a normalized line into maximal runs of spaces / non-spaces
(the chunking performed by textwrap's word separator). -/
def chunkifyAux (cur : List Char) (curIsSpace : Bool) : List Char → List (List Char)
  | [] => [cur.reverse]
  | c :: rest =>
      if (c == ' ') = curIsSpace then chunkifyAux (c :: cur) curIsSpace rest
      else cur.reverse :: chunkifyAux [c] (c == ' ') rest

/-- Chunk list of a normalized line (empty line gives no chunks). -/
def chunkify : List Char → List (List Char)
  | [] => []
  | c :: rest => chunkifyAux [c] (c == ' ') rest

/-- `chunk.strip() == ''`: the chunk holds only spaces. -/
def isWsChunk (chunk : List Char) : Bool := chunk.all (fun c => c == ' ')

/-- Total character count of a chunk list (`sum(map(len, cur_line))`). -/
def sumLens (l : List (List Char)) : ℕ := (l.map List.length).sum

/-- `''.join(cur_line)`. -/
def joinChunks : List (List Char) → List Char
  | [] => []
  | c :: rest => c ++ joinChunks rest

/-- The inner greedy fill of `_wrap_chunks`: take chunks while they fit in
the width; returns (chunks taken, resulting length, remaining chunks). -/
def fillLine (width : ℕ) : ℕ → List (List Char) → List (List Char) × ℕ × List (List Char)
  | curLen, [] => ([], curLen, [])
  | curLen, c :: rest =>
      if curLen + c.length ≤ width then
        (c :: (fillLine width (curLen + c.length) rest).1,
          (fillLine width (curLen + c.length) rest).2.1,
          (fillLine width (curLen + c.length) rest).2.2)
      else ([], curLen, c :: rest)

/-- `_handle_long_word` with `break_long_words=True`: if the next chunk is
longer than the width, chop `space_left` characters off its front onto the
current line. -/
def handleLongWord (width curLen : ℕ) (curLine rem : List (List Char)) :
    List (List Char) × List (List Char) :=
  match rem with
  | [] => (curLine, [])
  | c :: rest =>
      if width < c.length then
        (curLine ++ [c.take (if width < 1 then 1 else width - curLen)],
          c.drop (if width < 1 then 1 else width - curLen) :: rest)
      else (curLine, c :: rest)

/-- `drop_whitespace` applied to the end of a built line: a trailing
whitespace chunk is removed. -/
def dropTrailingWs (curLine : List (List Char)) : List (List Char) :=
  match curLine.getLast? with
  | none => curLine
  | some lst => if isWsChunk lst then curLine.dropLast else curLine

/-- `drop_whitespace` applied to the front of a new line: a leading
whitespace chunk is dropped, but only when at least one line was already
emitted (`... and lines` in `_wrap_chunks`). -/
def leadingDropped (hasLines : Bool) (chunks : List (List Char)) : List (List Char) :=
  match chunks with
  | [] => []
  | c0 :: rest0 =>
      if hasLines = true ∧ isWsChunk c0 = true then rest0 else c0 :: rest0

/-- One outer iteration of `_wrap_chunks`: drop a leading whitespace chunk,
greedily fill, handle an over-wide first remaining chunk, drop a trailing
whitespace chunk.  Returns the built line's chunks and the remaining
chunks. -/
def makeLine (width : ℕ) (hasLines : Bool) (chunks : List (List Char)) :
    List (List Char) × List (List Char) :=
  (dropTrailingWs
      (handleLongWord width
        (fillLine width 0 (leadingDropped hasLines chunks)).2.1
        (fillLine width 0 (leadingDropped hasLines chunks)).1
        (fillLine width 0 (leadingDropped hasLines chunks)).2.2).1,
    (handleLongWord width
        (fillLine width 0 (leadingDropped hasLines chunks)).2.1
        (fillLine width 0 (leadingDropped hasLines chunks)).1
        (fillLine width 0 (leadingDropped hasLines chunks)).2.2).2)

/-- The outer loop of `_wrap_chunks` (fuel-indexed): build lines until the
chunks run out, emitting a line only when nonempty after the whitespace
drops. -/
def wrapChunks (width : ℕ) : ℕ → Bool → List (List Char) → List (List Char)
  | 0, _, _ => []
  | _ + 1, _, [] => []
  | fuel + 1, hasLines, c0 :: rest0 =>
      if (makeLine width hasLines (c0 :: rest0)).1 = [] then
        wrapChunks width fuel hasLines (makeLine width hasLines (c0 :: rest0)).2
      else
        joinChunks (makeLine width hasLines (c0 :: rest0)).1 ::
          wrapChunks width fuel true (makeLine width hasLines (c0 :: rest0)).2

/-- Modelled from the spec and the documented default behaviour of Python's
`textwrap.wrap` (the wrapper called at src/main.py:100 but not itself part
of src/): normalize whitespace, chunk, and run the greedy chunk loop with
ample fuel. -/
def textwrap_wrap (width : ℕ) (line : List Char) : List (List Char) :=
  wrapChunks width
    (sumLens (chunkify (normalizeWs line)) + (chunkify (normalizeWs line)).length + 1)
    false (chunkify (normalizeWs line))

/-- One original line's contribution (src/main.py:100):
`[""] if line == "" else textwrap.wrap(line, width=LINE_CHAR_LIMIT)`. -/
def wrapLine (width : ℕ) (line : List Char) : List (List Char) :=
  if line = [] then [[]] else textwrap_wrap width line

/-- Python's `text.split('\n')` (src/main.py:95). -/
def splitOnNl : List Char → List (List Char)
  | [] => [[]]
  | c :: rest =>
      if c = '\n' then [] :: splitOnNl rest
      else
        match splitOnNl rest with
        | [] => [[c]]
        | l :: ls => (c :: l) :: ls

/-- Concatenation of per-line wrap results (the `wrapped_lines += ...` loop
of src/main.py:98-101), generic in the per-line function. -/
def concatMapLines (f : List Char → List (List Char)) : List (List Char) → List (List Char)
  | [] => []
  | l :: ls => f l ++ concatMapLines f ls

/-- The full wrapping stage of `text_to_image` (src/main.py:95-102). -/
def text_to_image_wrapped (width : ℕ) (text : List Char) : List (List Char) :=
  concatMapLines (wrapLine width) (splitOnNl text)

/-
Grid positioning: the drawing loop of `text_to_image` (src/main.py:113-123).
-/

/-- The mutable drawing state of the loop: `x_pos`, `y_pos`,
`current_line_num`. -/
structure DrawState where
  xPos : ℚ
  yPos : ℚ
  currentLineNum : ℕ

/-- State before the first iteration (src/main.py:89 and 114):
`x_pos = y_pos = IMAGE_PADDING`, `current_line_num = 1`. -/
def drawInit (P : ℚ) : DrawState := { xPos := P, yPos := P, currentLineNum := 1 }

/-- One iteration's state update (src/main.py:117-123): advance `y_pos` and
`current_line_num`; when the column is full, start the next column. -/
def drawStep (lpc : ℕ) (lw lh P : ℚ) (s : DrawState) : DrawState :=
  if lpc < s.currentLineNum + 1 then
    { xPos := s.xPos + (lw + P), yPos := P, currentLineNum := 1 }
  else
    { xPos := s.xPos, yPos := s.yPos + lh, currentLineNum := s.currentLineNum + 1 }

/-- The drawing loop (src/main.py:115-123): each wrapped line is drawn at the
current `(x_pos, y_pos)` and the state is advanced. -/
def placeLines (lpc : ℕ) (lw lh P : ℚ) :
    List (List Char) → DrawState → List (List Char × ℚ × ℚ)
  | [], _ => []
  | line :: rest, s =>
      (line, s.xPos, s.yPos) :: placeLines lpc lw lh P rest (drawStep lpc lw lh P s)

/-- Closed form of the drawing state after `k` lines have been drawn. -/
def stateAt (lpc : ℕ) (lw lh P : ℚ) (k : ℕ) : DrawState :=
  { xPos := ((k / lpc : ℕ) : ℚ) * (lw + P) + P
  , yPos := ((k % lpc : ℕ) : ℚ) * lh + P
  , currentLineNum := k % lpc + 1 }

/-- `ceil(n / c) ≥ 1` as soon as there is at least one line and one column. -/
theorem lpc_pos (n c : ℕ) (hn : 1 ≤ n) (hc : 1 ≤ c) : 1 ≤ linesPerColumn n c := by
  unfold linesPerColumn
  rw [Nat.le_div_iff_mul_le (by omega : 0 < c)]
  omega

/-- `ceil(n / c) = 1` once the candidate column count reaches `n`. -/
theorem lpc_eq_one (n c : ℕ) (hn : 1 ≤ n) (hc : n ≤ c) : linesPerColumn n c = 1 := by
  unfold linesPerColumn
  exact Nat.div_eq_of_lt_le (by omega) (by omega)

/-- `c` columns of `ceil(n / c)` rows hold all `n` lines. -/
theorem n_le_mul_lpc (n c : ℕ) (hc : 1 ≤ c) : n ≤ c * linesPerColumn n c := by
  unfold linesPerColumn
  have hdm := Nat.div_add_mod (n + c - 1) c
  have hml : (n + c - 1) % c < c := Nat.mod_lt _ (by omega)
  generalize hX : c * ((n + c - 1) / c) = X at hdm ⊢
  generalize hR : (n + c - 1) % c = R at hdm hml
  omega

/-- A tested candidate's height is positive whenever there is at least one
line, so the ratio division cannot raise. -/
theorem candHeight_pos (h : ℚ) (n c : ℕ) (hn : 1 ≤ n) (hh : 0 < h) (hc : 1 ≤ c) :
    0 < candHeight h n c := by
  unfold candHeight
  have : (0 : ℚ) < ((linesPerColumn n c : ℕ) : ℚ) := by
    exact_mod_cast Nat.lt_of_lt_of_le Nat.zero_lt_one (lpc_pos n c hn hc)
  exact mul_pos this hh

/-- Characterization of the loop from a reachable state: the state after a
strict improvement at candidate `c` is `(c, some (diff c), c)`, and from there
the loop runs to the first candidate whose difference stops strictly
improving, returning the candidate just before it. -/
theorem calcLoop_run (w h t : ℚ) (n : ℕ) (hn : 1 ≤ n) (hh : 0 < h) :
    ∀ fuel c j, 1 ≤ c → c ≤ j → j - c < fuel →
      (∀ i, c ≤ i → i < j → candDiff w h t n (i + 1) < candDiff w h t n i) →
      ¬ candDiff w h t n (j + 1) < candDiff w h t n j →
      calcLoop w h n t fuel c (some (candDiff w h t n c)) c = some (Except.ok j) := by
  intro fuel
  induction fuel with
  | zero => intro c j _ hcj hlt _ _; omega
  | succ f ih =>
      intro c j hc hcj hfuel hchain hstop
      have hpos : ¬ candHeight h n (c + 1) = 0 :=
        ne_of_gt (candHeight_pos h n (c + 1) hn hh (by omega))
      unfold calcLoop
      rw [if_neg hpos]
      by_cases hlt : candDiff w h t n (c + 1) < candDiff w h t n c
      · have hcj' : c < j := by
          rcases Nat.lt_or_ge c j with h' | h'
          · exact h'
          · have hceq : c = j := le_antisymm hcj h'
            exact absurd (hceq ▸ hlt) hstop
        rw [if_pos (show ltBest (candDiff w h t n (c + 1))
              (some (candDiff w h t n c)) from hlt)]
        exact ih (c + 1) j (by omega) (by omega) (by omega)
          (fun i hi1 hi2 => hchain i (by omega) hi2) hstop
      · have hcj' : c = j := by
          by_contra hne
          exact hlt (hchain c le_rfl (by omega))
        rw [if_neg (show ¬ ltBest (candDiff w h t n (c + 1))
              (some (candDiff w h t n c)) from hlt)]
        rw [hcj']

/-- The full optimizer run: if candidate differences strictly improve up to
`j` and stop improving at `j + 1`, the optimizer returns `j` (given fuel for
the `j + 1` executed iterations). -/
theorem calcOptimal_run (w h t : ℚ) (n : ℕ) (hn : 1 ≤ n) (hw : 0 < w) (hh : 0 < h)
    (j fuel : ℕ) (hj : 1 ≤ j) (hfuel : j < fuel)
    (hchain : ∀ i, 1 ≤ i → i < j → candDiff w h t n (i + 1) < candDiff w h t n i)
    (hstop : ¬ candDiff w h t n (j + 1) < candDiff w h t n j) :
    calcOptimalColumnsT w h n t fuel = some (Except.ok j) := by
  unfold calcOptimalColumnsT
  rw [if_neg (by push_neg; exact ⟨hh, hw⟩)]
  obtain ⟨f, rfl⟩ : ∃ f, fuel = f + 1 := ⟨fuel - 1, by omega⟩
  unfold calcLoop
  have hpos : ¬ candHeight h n (0 + 1) = 0 := by
    rw [Nat.zero_add]
    exact ne_of_gt (candHeight_pos h n 1 hn hh le_rfl)
  rw [if_neg hpos]
  rw [if_pos (show ltBest (candDiff w h t n (0 + 1)) none from trivial)]
  have := calcLoop_run w h t n hn hh f 1 j le_rfl hj (by omega) hchain hstop
  simpa using this

/-- Once `ratio(j) ≥ target` holds with one line per column, growing `j`
strictly grows the distance to the target, so the loop cannot improve at
`j + 1`. -/
theorem stop_of_ratio_ge (w h t : ℚ) (n j : ℕ) (hn : 1 ≤ n) (hw : 0 < w) (hh : 0 < h)
    (hj : n ≤ j) (ht : t ≤ (j : ℚ) * w / h) :
    ¬ candDiff w h t n (j + 1) < candDiff w h t n j := by
  have h1 : linesPerColumn n j = 1 := lpc_eq_one n j hn hj
  have h2 : linesPerColumn n (j + 1) = 1 := lpc_eq_one n (j + 1) hn (by omega)
  have hrj : candRatio w h n j = (j : ℚ) * w / h := by
    unfold candRatio candWidth candHeight
    rw [h1]
    norm_num
  have hrj1 : candRatio w h n (j + 1) = ((j : ℚ) + 1) * w / h := by
    unfold candRatio candWidth candHeight
    rw [h2]
    push_cast
    norm_num
  have hmono : (j : ℚ) * w / h < ((j : ℚ) + 1) * w / h := by
    apply div_lt_div_of_pos_right ?_ hh
    have : (j : ℚ) < (j : ℚ) + 1 := by linarith
    exact mul_lt_mul_of_pos_right this hw
  have ht1 : t ≤ ((j : ℚ) + 1) * w / h := le_trans ht (le_of_lt hmono)
  unfold candDiff pyAbs
  rw [hrj, hrj1]
  rw [if_neg (not_lt.mpr (sub_nonneg.mpr ht1)), if_neg (not_lt.mpr (sub_nonneg.mpr ht))]
  exact not_lt.mpr (by linarith)

/-- There always is a candidate at which the distance stops strictly
improving, whatever the target ratio: past `n` columns the height is one row
and the ratio grows linearly past the target. -/
theorem exists_stop (w h t : ℚ) (n : ℕ) (hn : 1 ≤ n) (hw : 0 < w) (hh : 0 < h) :
    ∃ j, 1 ≤ j ∧ ¬ candDiff w h t n (j + 1) < candDiff w h t n j := by
  refine ⟨n + ⌈t * h / w⌉₊, by omega, ?_⟩
  apply stop_of_ratio_ge w h t n _ hn hw hh (by omega)
  have hceil : t * h / w ≤ ((n + ⌈t * h / w⌉₊ : ℕ) : ℚ) := by
    have h1 : t * h / w ≤ (⌈t * h / w⌉₊ : ℚ) := Nat.le_ceil _
    have h2 : (0 : ℚ) ≤ (n : ℚ) := Nat.cast_nonneg n
    push_cast
    linarith
  rw [le_div_iff₀ hh]
  have hmul : t * h ≤ ((n + ⌈t * h / w⌉₊ : ℕ) : ℚ) * w := (div_le_iff₀ hw).mp hceil
  linarith

/-- The optimizer returns exactly the least candidate `r ≥ 1` at which the
distance-to-target stops strictly improving, for every sufficient fuel. -/
theorem calc_returns_least (w h t : ℚ) (n : ℕ) (hn : 1 ≤ n) (hw : 0 < w) (hh : 0 < h) :
    ∃ r, 1 ≤ r ∧
      (∀ i, 1 ≤ i → i < r → candDiff w h t n (i + 1) < candDiff w h t n i) ∧
      (¬ candDiff w h t n (r + 1) < candDiff w h t n r) ∧
      ∀ fuel, r < fuel → calcOptimalColumnsT w h n t fuel = some (Except.ok r) := by
  have hex : ∃ j, 1 ≤ j ∧ ¬ candDiff w h t n (j + 1) < candDiff w h t n j :=
    exists_stop w h t n hn hw hh
  have hchain : ∀ i, 1 ≤ i → i < Nat.find hex →
      candDiff w h t n (i + 1) < candDiff w h t n i := by
    intro i hi1 hi2
    have hmin := Nat.find_min hex hi2
    push_neg at hmin
    exact hmin hi1
  refine ⟨Nat.find hex, (Nat.find_spec hex).1, hchain, (Nat.find_spec hex).2, ?_⟩
  intro fuel hfuel
  exact calcOptimal_run w h t n hn hw hh (Nat.find hex) fuel
    (Nat.find_spec hex).1 hfuel hchain (Nat.find_spec hex).2

/-- Along a strictly improving run, the final value is minimal. -/
theorem chain_min (D : ℕ → ℚ) (r : ℕ)
    (hchain : ∀ i, 1 ≤ i → i < r → D (i + 1) < D i) :
    ∀ i, 1 ≤ i → i ≤ r → D r ≤ D i := by
  intro i h1 h2
  have key : ∀ k, i + k ≤ r → D (i + k) ≤ D i := by
    intro k
    induction k with
    | zero => intro _; simp
    | succ m ihm =>
        intro hle
        have hlt : D (i + m + 1) < D (i + m) := hchain (i + m) (by omega) (by omega)
        have hle2 := ihm (by omega)
        have heq : i + (m + 1) = i + m + 1 := by omega
        rw [heq]
        linarith
  have hkey := key (r - i) (by omega)
  rwa [show i + (r - i) = r by omega] at hkey

/-- C1 counterexample: at `line_width = 1`, `line_height = 10`,
`lines_count = 1` the optimizer keeps improving past `totalLines` (the ratio
approaches the target `1` from below) and returns `10 > 1`, so
`columns ≤ totalLines` fails as stated. -/
theorem calc_columns_upper_counterexample :
    calculate_optimal_columns 1 10 1 12 = some (Except.ok 10) ∧ ¬ (10 : ℕ) ≤ 1 :=
  ⟨of_decide_eq_true (by with_unfolding_all rfl), by decide⟩

/-- C1 (amended): for `totalLines ≥ 1`, strictly positive cell dimensions
and `totalLines × cellWidth ≥ cellHeight` (in particular whenever
`cellWidth ≥ cellHeight`), `calculate_optimal_columns` returns `columns` with
`1 ≤ columns ≤ totalLines`. -/
theorem calc_columns_range (w h : ℚ) (n : ℕ)
    (hn : 1 ≤ n) (hw : 0 < w) (hh : 0 < h) (hwide : h ≤ (n : ℚ) * w) :
    ∃ fuel r, calculate_optimal_columns w h n fuel = some (Except.ok r) ∧
      1 ≤ r ∧ r ≤ n := by
  obtain ⟨r, hr1, hchain, hstop, hrun⟩ :=
    calc_returns_least w h targetAspectRatio n hn hw hh
  refine ⟨r + 1, r, hrun (r + 1) (by omega), hr1, ?_⟩
  by_contra hgt
  push_neg at hgt
  have hstopn : ¬ candDiff w h targetAspectRatio n (n + 1) <
      candDiff w h targetAspectRatio n n := by
    apply stop_of_ratio_ge w h targetAspectRatio n n hn hw hh le_rfl
    unfold targetAspectRatio
    rw [le_div_iff₀ hh]
    linarith
  exact hstopn (hchain n hn hgt)

/-- C1 witness: the amended statement at `w = 2`, `h = 1`, `n = 3`. -/
theorem calc_columns_range_witness :
    (1 : ℕ) ≤ 3 ∧ (0 : ℚ) < 2 ∧ (0 : ℚ) < 1 ∧ (1 : ℚ) ≤ ((3 : ℕ) : ℚ) * 2 ∧
    (∃ fuel r, calculate_optimal_columns 2 1 3 fuel = some (Except.ok r) ∧
      1 ≤ r ∧ r ≤ 3) :=
  ⟨by decide, by norm_num, by norm_num, by norm_num,
    calc_columns_range 2 1 3 (by decide) (by norm_num) (by norm_num) (by norm_num)⟩

/-- C2 counterexample: at `line_width = 7`, `line_height = 25`,
`lines_count = 10` the optimizer returns `7` columns with
`linesPerColumn = 2`, and `(7 - 1) × 2 = 12 ≥ 10`: the seventh column is left
entirely unused, refuting `(columns − 1) × linesPerColumn < totalLines`. -/
theorem layout_plan_counterexample :
    calculate_optimal_columns 7 25 10 9 = some (Except.ok 7) ∧
    ¬ (7 - 1) * linesPerColumn 10 7 < 10 :=
  ⟨of_decide_eq_true (by with_unfolding_all rfl), by decide⟩

/-- C2 (amended): for every wrapped-line count `totalLines ≥ 1` and strictly
positive cell dimensions, the layout plan satisfies `columns ≥ 1`,
`linesPerColumn ≥ 1` and `columns × linesPerColumn ≥ totalLines`; the second
claimed inequality `(columns − 1) × linesPerColumn < totalLines` does not
hold in general. -/
theorem layout_plan_covers (w h : ℚ) (n : ℕ) (hn : 1 ≤ n) (hw : 0 < w) (hh : 0 < h) :
    ∃ fuel r, calculate_optimal_columns w h n fuel = some (Except.ok r) ∧ 1 ≤ r ∧
      1 ≤ linesPerColumn n r ∧ n ≤ r * linesPerColumn n r := by
  obtain ⟨r, hr1, _, _, hrun⟩ := calc_returns_least w h targetAspectRatio n hn hw hh
  exact ⟨r + 1, r, hrun (r + 1) (by omega), hr1, lpc_pos n r hn hr1, n_le_mul_lpc n r hr1⟩

/-- C2 witness: the amended statement at `w = 1`, `h = 1`, `n = 2`. -/
theorem layout_plan_covers_witness :
    (1 : ℕ) ≤ 2 ∧ (0 : ℚ) < 1 ∧ (0 : ℚ) < 1 ∧
    (∃ fuel r, calculate_optimal_columns 1 1 2 fuel = some (Except.ok r) ∧ 1 ≤ r ∧
      1 ≤ linesPerColumn 2 r ∧ 2 ≤ r * linesPerColumn 2 r) :=
  ⟨by decide, by norm_num, by norm_num,
    layout_plan_covers 1 1 2 (by decide) (by norm_num) (by norm_num)⟩

/-- C3: with `lines_count = 0` (and positive dimensions) the code does not
special-case the input: candidate `c = 1` has `lines_per_column = 0`, hence
`total_height = 0`, and `total_width / total_height` raises
`ZeroDivisionError` instead of returning `columns = 1`. -/
theorem zero_lines_division_by_zero :
    calculate_optimal_columns 10 20 0 5 =
      some (Except.error CalcError.zeroDivisionError) ∧
    calculate_optimal_columns 10 20 0 5 ≠ some (Except.ok 1) :=
  ⟨of_decide_eq_true (by with_unfolding_all rfl),
    of_decide_eq_true (by with_unfolding_all rfl)⟩

/-- C4: the optimizer's scan strictly improves at every candidate before the
returned `r`, stops at the first candidate `r + 1` whose distance is not
strictly smaller than the best so far, and `r` attains the minimum distance
among all evaluated candidates `1 .. r + 1` (a tie at `r + 1` leaves the
earlier candidate `r` as the winner because the comparison is strict). -/
theorem optimizer_first_nonimproving_stop (w h : ℚ) (n : ℕ)
    (hn : 1 ≤ n) (hw : 0 < w) (hh : 0 < h) :
    ∃ fuel r, calculate_optimal_columns w h n fuel = some (Except.ok r) ∧ 1 ≤ r ∧
      (∀ i, 1 ≤ i → i < r →
        candDiff w h targetAspectRatio n (i + 1) < candDiff w h targetAspectRatio n i) ∧
      (¬ candDiff w h targetAspectRatio n (r + 1) < candDiff w h targetAspectRatio n r) ∧
      (∀ i, 1 ≤ i → i ≤ r + 1 →
        candDiff w h targetAspectRatio n r ≤ candDiff w h targetAspectRatio n i) := by
  obtain ⟨r, hr1, hchain, hstop, hrun⟩ :=
    calc_returns_least w h targetAspectRatio n hn hw hh
  refine ⟨r + 1, r, hrun (r + 1) (by omega), hr1, hchain, hstop, ?_⟩
  intro i hi1 hi2
  rcases Nat.lt_or_ge i (r + 1) with hlt | hge
  · exact chain_min (candDiff w h targetAspectRatio n) r hchain i hi1 (by omega)
  · have hieq : i = r + 1 := by omega
    subst hieq
    exact not_lt.mp hstop

/-- C4 witness: the statement at `w = 3`, `h = 2`, `n = 2`. -/
theorem optimizer_first_nonimproving_stop_witness :
    (1 : ℕ) ≤ 2 ∧ (0 : ℚ) < 3 ∧ (0 : ℚ) < 2 ∧
    (∃ fuel r, calculate_optimal_columns 3 2 2 fuel = some (Except.ok r) ∧ 1 ≤ r ∧
      (∀ i, 1 ≤ i → i < r →
        candDiff 3 2 targetAspectRatio 2 (i + 1) < candDiff 3 2 targetAspectRatio 2 i) ∧
      (¬ candDiff 3 2 targetAspectRatio 2 (r + 1) < candDiff 3 2 targetAspectRatio 2 r) ∧
      (∀ i, 1 ≤ i → i ≤ r + 1 →
        candDiff 3 2 targetAspectRatio 2 r ≤ candDiff 3 2 targetAspectRatio 2 i)) :=
  ⟨by decide, by norm_num, by norm_num,
    optimizer_first_nonimproving_stop 3 2 2 (by decide) (by norm_num) (by norm_num)⟩

/-- C5 counterexample: on `totalLines = 10`, `cellWidth = 10`,
`cellHeight = 20` the optimizer does not stop within candidates `1 .. 4`: it
returns `5`, and the height of candidate `4` is `ceil(10/4) × 20 = 60`, not
`50`. -/
theorem optimizer_scenario_counterexample :
    calculate_optimal_columns 10 20 10 8 = some (Except.ok 5) ∧
    ¬ candHeight 20 10 4 = 50 ∧ ¬ (5 : ℕ) ≤ 4 :=
  of_decide_eq_true (by with_unfolding_all rfl)

/-- C5 (amended): on `totalLines = 10`, `cellWidth = 10`, `cellHeight = 20`,
target `1.0`, the optimizer evaluates exactly the candidates `c = 1 .. 6`
(it runs out after 5 iterations, completes within 6), with per-candidate
heights `200, 100, 80, 60, 40, 40`, and returns `c = 5` (ratio `1.25`),
whose distance to `1.0` is minimal among the evaluated candidates. -/
theorem optimizer_scenario_amended :
    calculate_optimal_columns 10 20 10 5 = none ∧
    calculate_optimal_columns 10 20 10 6 = some (Except.ok 5) ∧
    candHeight 20 10 1 = 200 ∧ candHeight 20 10 2 = 100 ∧ candHeight 20 10 3 = 80 ∧
    candHeight 20 10 4 = 60 ∧ candHeight 20 10 5 = 40 ∧ candHeight 20 10 6 = 40 ∧
    candRatio 10 20 10 5 = 5 / 4 ∧
    (∀ i, i ≤ 6 → 1 ≤ i →
      candDiff 10 20 targetAspectRatio 10 5 ≤ candDiff 10 20 targetAspectRatio 10 i) :=
  of_decide_eq_true (by with_unfolding_all rfl)

/-- C9: for every `totalLines ≥ 1`, strictly positive cell dimensions and
positive target aspect ratio, the increasing-candidate loop terminates: some
finite fuel suffices for the loop to return normally. -/
theorem optimizer_loop_terminates (w h t : ℚ) (n : ℕ)
    (hn : 1 ≤ n) (hw : 0 < w) (hh : 0 < h) (_ht : 0 < t) :
    ∃ fuel r, calcOptimalColumnsT w h n t fuel = some (Except.ok r) := by
  obtain ⟨r, _, _, _, hrun⟩ := calc_returns_least w h t n hn hw hh
  exact ⟨r + 1, r, hrun (r + 1) (by omega)⟩

/-- C9 witness: termination at `w = 1`, `h = 1`, `n = 1`, `t = 2`. -/
theorem optimizer_loop_terminates_witness :
    (1 : ℕ) ≤ 1 ∧ (0 : ℚ) < 1 ∧ (0 : ℚ) < 1 ∧ (0 : ℚ) < 2 ∧
    (∃ fuel r, calcOptimalColumnsT 1 1 1 2 fuel = some (Except.ok r)) :=
  ⟨by decide, by norm_num, by norm_num, by norm_num,
    optimizer_loop_terminates 1 1 2 1 (by decide) (by norm_num) (by norm_num) (by norm_num)⟩

/-- `sumLens` of an empty chunk list. -/
theorem sumLens_nil : sumLens [] = 0 := rfl

/-- `sumLens` of a cons. -/
theorem sumLens_cons (c : List Char) (l : List (List Char)) :
    sumLens (c :: l) = c.length + sumLens l := by
  simp [sumLens]

/-- `sumLens` distributes over append. -/
theorem sumLens_append (a b : List (List Char)) :
    sumLens (a ++ b) = sumLens a + sumLens b := by
  simp [sumLens]

/-- The length of a joined line is the total chunk length. -/
theorem joinChunks_length : ∀ l : List (List Char), (joinChunks l).length = sumLens l := by
  intro l
  induction l with
  | nil => rfl
  | cons c rest ih => simp [joinChunks, sumLens_cons, ih]

/-- Removing the last chunk cannot increase the total length. -/
theorem sumLens_dropLast_le : ∀ l : List (List Char), sumLens l.dropLast ≤ sumLens l := by
  intro l
  induction l with
  | nil => simp
  | cons c rest ih =>
      cases rest with
      | nil => simp [sumLens]
      | cons d rest2 =>
          have hdl : (c :: d :: rest2).dropLast = c :: (d :: rest2).dropLast := rfl
          rw [hdl, sumLens_cons, sumLens_cons]
          omega

/-- The greedy fill reports the exact length of what it took, and never
exceeds the width when started within it. -/
theorem fillLine_spec (width : ℕ) :
    ∀ (chunks : List (List Char)) (curLen : ℕ),
      (fillLine width curLen chunks).2.1 =
          curLen + sumLens (fillLine width curLen chunks).1 ∧
      (curLen ≤ width → (fillLine width curLen chunks).2.1 ≤ width) := by
  intro chunks
  induction chunks with
  | nil => intro curLen; simp [fillLine, sumLens]
  | cons c rest ih =>
      intro curLen
      by_cases hfit : curLen + c.length ≤ width
      · simp only [fillLine, if_pos hfit]
        obtain ⟨h1, h2⟩ := ih (curLen + c.length)
        constructor
        · rw [h1, sumLens_cons]
          omega
        · intro _
          exact h2 hfit
      · simp only [fillLine, if_neg hfit]
        exact ⟨by simp [sumLens], fun h => h⟩

/-- The long-word handler keeps the built line within the width. -/
theorem handleLongWord_len (width curLen : ℕ) (curLine rem : List (List Char))
    (hw : 1 ≤ width) (hcl : curLen = sumLens curLine) (hle : curLen ≤ width) :
    sumLens (handleLongWord width curLen curLine rem).1 ≤ width := by
  cases rem with
  | nil => simpa [handleLongWord] using hcl ▸ hle
  | cons c rest =>
      by_cases hbig : width < c.length
      · simp only [handleLongWord, if_pos hbig]
        have hsl : ¬ width < 1 := by omega
        rw [if_neg hsl, sumLens_append, sumLens_cons, sumLens_nil]
        have htake : (c.take (width - curLen)).length ≤ width - curLen := by
          simp [List.length_take]
        omega
      · simp only [handleLongWord, if_neg hbig]
        exact hcl ▸ hle

/-- Dropping a trailing whitespace chunk cannot lengthen the line. -/
theorem dropTrailingWs_le (l : List (List Char)) :
    sumLens (dropTrailingWs l) ≤ sumLens l := by
  unfold dropTrailingWs
  split
  · exact le_rfl
  · split
    · exact sumLens_dropLast_le l
    · exact le_rfl

/-- Every line assembled by one outer iteration fits in the width. -/
theorem makeLine_len (width : ℕ) (hasLines : Bool) (chunks : List (List Char))
    (hw : 1 ≤ width) : sumLens (makeLine width hasLines chunks).1 ≤ width := by
  unfold makeLine
  apply le_trans (dropTrailingWs_le _)
  have hfill := fillLine_spec width (leadingDropped hasLines chunks) 0
  apply handleLongWord_len _ _ _ _ hw
  · simpa using hfill.1
  · exact hfill.2 (by omega)

/-- The chunk loop on no chunks produces no lines, whatever the fuel. -/
theorem wrapChunks_nil (width : ℕ) : ∀ (fuel : ℕ) (hasLines : Bool),
    wrapChunks width fuel hasLines [] = [] := by
  intro fuel hasLines
  cases fuel <;> rfl

/-- Every line produced by the chunk loop fits in the width (for every fuel
and every starting state). -/
theorem wrapChunks_len (width : ℕ) (hw : 1 ≤ width) :
    ∀ (fuel : ℕ) (hasLines : Bool) (chunks : List (List Char)),
      ∀ out ∈ wrapChunks width fuel hasLines chunks, out.length ≤ width := by
  intro fuel
  induction fuel with
  | zero => intro hasLines chunks out hmem; simp [wrapChunks] at hmem
  | succ f ih =>
      intro hasLines chunks out hmem
      cases chunks with
      | nil => rw [wrapChunks_nil] at hmem; simp at hmem
      | cons c0 rest0 =>
          unfold wrapChunks at hmem
          by_cases hml : (makeLine width hasLines (c0 :: rest0)).1 = []
          · rw [if_pos hml] at hmem
            exact ih hasLines _ out hmem
          · rw [if_neg hml] at hmem
            rcases List.mem_cons.mp hmem with rfl | hmem2
            · rw [joinChunks_length]
              exact makeLine_len width hasLines _ hw
            · exact ih true _ out hmem2

/-- The per-line bound carried through the whole wrapped sequence. -/
theorem concatMap_wrap_len (width : ℕ) (hw : 40 ≤ width) :
    ∀ (ls : List (List Char)) (out : List Char),
      out ∈ concatMapLines (wrapLine width) ls → out.length ≤ width := by
  intro ls
  induction ls with
  | nil => intro out h; simp [concatMapLines] at h
  | cons l rest ih =>
      intro out h
      unfold concatMapLines at h
      rcases List.mem_append.mp h with h1 | h2
      · unfold wrapLine at h1
        by_cases hl : l = []
        · rw [if_pos hl] at h1
          simp at h1
          subst h1
          simp
        · rw [if_neg hl] at h1
          unfold textwrap_wrap at h1
          exact wrapChunks_len width (by omega) _ _ _ out h1
      · exact ih out h2

/-- C7: for every input text and every `lineCharLimit ≥ 40`, every line
produced by the wrapping stage of `text_to_image` has length at most the
limit; in particular a word longer than the limit is broken at it rather
than emitted overlong. -/
theorem wrapped_line_length_le (width : ℕ) (hw : 40 ≤ width) (text : List Char) :
    ∀ out ∈ text_to_image_wrapped width text, out.length ≤ width := by
  intro out hmem
  exact concatMap_wrap_len width hw (splitOnNl text) out hmem

/-- C7 witness: the limit `40` and a 45-character word, which is wrapped
into a 40-character line followed by a 5-character line. -/
theorem wrapped_line_length_le_witness :
    (40 : ℕ) ≤ 40 ∧
    text_to_image_wrapped 40 (List.replicate 45 'x') =
      [List.replicate 40 'x', List.replicate 5 'x'] ∧
    (∀ out ∈ text_to_image_wrapped 40 (List.replicate 45 'x'), out.length ≤ 40) :=
  ⟨by decide, by decide, wrapped_line_length_le 40 (by decide) (List.replicate 45 'x')⟩

/-- `concatMapLines` distributes over append. -/
theorem concatMapLines_append (f : List Char → List (List Char)) :
    ∀ a b : List (List Char),
      concatMapLines f (a ++ b) = concatMapLines f a ++ concatMapLines f b := by
  intro a b
  induction a with
  | nil => rfl
  | cons l ls ih => simp [concatMapLines, ih]

/-- C8: an empty original line contributes exactly one empty wrapped line,
in place, to the wrapping stage's output, so blank lines are preserved. -/
theorem empty_line_yields_one_empty (width : ℕ) (text : List Char)
    (pre post : List (List Char))
    (hsplit : splitOnNl text = pre ++ [[]] ++ post) :
    text_to_image_wrapped width text =
      concatMapLines (wrapLine width) pre ++ [[]] ++
        concatMapLines (wrapLine width) post := by
  unfold text_to_image_wrapped
  rw [hsplit, concatMapLines_append, concatMapLines_append]
  have hmid : concatMapLines (wrapLine width) [[]] = [[]] := rfl
  rw [hmid]

/-- C8 witness: the text `"a\n\nb"`, whose empty middle line survives as one
empty wrapped line between the wraps of `"a"` and `"b"`. -/
theorem empty_line_yields_one_empty_witness :
    splitOnNl ['a', '\n', '\n', 'b'] = [['a']] ++ [[]] ++ [['b']] ∧
    text_to_image_wrapped 40 ['a', '\n', '\n', 'b'] =
      concatMapLines (wrapLine 40) [['a']] ++ [[]] ++
        concatMapLines (wrapLine 40) [['b']] :=
  ⟨by decide,
    empty_line_yields_one_empty 40 ['a', '\n', '\n', 'b'] [['a']] [['b']] (by decide)⟩

/-- A prefix of an all-space chunk is all-space. -/
theorem isWsChunk_take (c : List Char) (k : ℕ) (h : isWsChunk c = true) :
    isWsChunk (c.take k) = true := by
  rw [isWsChunk, List.all_eq_true] at *
  intro x hx
  exact h x ((List.take_sublist k c).subset hx)

/-- A suffix of an all-space chunk is all-space. -/
theorem isWsChunk_drop (c : List Char) (k : ℕ) (h : isWsChunk c = true) :
    isWsChunk (c.drop k) = true := by
  rw [isWsChunk, List.all_eq_true] at *
  intro x hx
  exact h x ((List.drop_sublist k c).subset hx)

/-- With no line emitted yet, the leading-whitespace drop does nothing. -/
theorem leadingDropped_false (chunks : List (List Char)) :
    leadingDropped false chunks = chunks := by
  cases chunks with
  | nil => rfl
  | cons c0 rest0 =>
      show (if false = true ∧ isWsChunk c0 = true then rest0 else c0 :: rest0) =
        c0 :: rest0
      rw [if_neg (by simp)]

/-- Computation rule for the long-word handler on an over-wide chunk. -/
theorem handleLongWord_big (width curLen : ℕ) (curLine : List (List Char))
    (c : List Char) (rest : List (List Char)) (hbig : width < c.length) :
    handleLongWord width curLen curLine (c :: rest) =
      (curLine ++ [c.take (if width < 1 then 1 else width - curLen)],
        c.drop (if width < 1 then 1 else width - curLen) :: rest) := by
  show (if width < c.length then _ else _) = _
  rw [if_pos hbig]

/-- Computation rule for the trailing-whitespace drop on a one-chunk line. -/
theorem dropTrailingWs_single (c : List Char) :
    dropTrailingWs [c] = if isWsChunk c = true then [] else [c] := by
  rfl

/-- One outer iteration on a single whitespace chunk emits nothing: the
chunk (or the slice chopped off it) is dropped as trailing whitespace, and
what remains is again a single whitespace chunk. -/
theorem makeLine_ws_single (width : ℕ) (c : List Char) (hws : isWsChunk c = true) :
    (makeLine width false [c]).1 = [] ∧
    ((makeLine width false [c]).2 = [] ∨
      ∃ c2, (makeLine width false [c]).2 = [c2] ∧ isWsChunk c2 = true) := by
  by_cases hfit : c.length ≤ width
  · have hfl : fillLine width 0 [c] = ([c], c.length, []) := by
      simp [fillLine, hfit]
    have hml : makeLine width false [c] = ([], []) := by
      unfold makeLine
      rw [leadingDropped_false, hfl]
      dsimp only
      rw [show handleLongWord width c.length [c] [] = ([c], []) from rfl]
      dsimp only
      rw [dropTrailingWs_single, if_pos hws]
    rw [hml]
    exact ⟨rfl, Or.inl rfl⟩
  · have hfl : fillLine width 0 [c] = ([], 0, [c]) := by
      simp only [fillLine, if_neg (by omega : ¬ 0 + c.length ≤ width)]
    have hbig : width < c.length := by omega
    have htake : ∀ k, isWsChunk (List.take k c) = true :=
      fun k => isWsChunk_take c k hws
    have hml : makeLine width false [c] =
        ([], [c.drop (if width < 1 then 1 else width - 0)]) := by
      unfold makeLine
      rw [leadingDropped_false, hfl]
      dsimp only
      rw [handleLongWord_big width 0 [] c [] hbig]
      dsimp only
      rw [List.nil_append, dropTrailingWs_single, if_pos (htake _)]
    rw [hml]
    exact ⟨rfl, Or.inr ⟨_, rfl, isWsChunk_drop c _ hws⟩⟩

/-- The chunk loop on a single whitespace chunk emits no lines at all, for
every fuel value. -/
theorem wrapChunks_ws_single (width : ℕ) :
    ∀ (fuel : ℕ) (c : List Char), isWsChunk c = true →
      wrapChunks width fuel false [c] = [] := by
  intro fuel
  induction fuel with
  | zero => intro c _; rfl
  | succ f ih =>
      intro c hws
      obtain ⟨h1, h2⟩ := makeLine_ws_single width c hws
      unfold wrapChunks
      rw [if_pos h1]
      rcases h2 with h2 | ⟨c2, h2, hc2⟩
      · rw [h2, wrapChunks_nil]
      · rw [h2]
        exact ih c2 hc2

/-- `chunkifyAux` on an all-space remainder yields a single chunk. -/
theorem chunkifyAux_all_space :
    ∀ (rest cur : List Char), (∀ x ∈ rest, x = ' ') →
      chunkifyAux cur true rest = [cur.reverse ++ rest] := by
  intro rest
  induction rest with
  | nil => intro cur _; simp [chunkifyAux]
  | cons c rest2 ih =>
      intro cur hall
      have hc : c = ' ' := hall c (by simp)
      subst hc
      unfold chunkifyAux
      rw [if_pos (by simp)]
      rw [ih (' ' :: cur) (fun x hx => hall x (by simp [hx]))]
      simp

/-- An all-space nonempty line is a single whitespace chunk. -/
theorem chunkify_all_space (l : List Char) (hne : l ≠ []) (hall : ∀ x ∈ l, x = ' ') :
    chunkify l = [l] := by
  cases l with
  | nil => exact absurd rfl hne
  | cons c rest =>
      have hc : c = ' ' := hall c (by simp)
      subst hc
      show chunkifyAux [' '] (' ' == ' ') rest = [' ' :: rest]
      rw [show ((' ' == ' ') = true) from rfl]
      rw [chunkifyAux_all_space rest [' '] (fun x hx => hall x (by simp [hx]))]
      rfl

/-- After normalization, a line of whitespace characters is all spaces. -/
theorem normalizeWs_all_space (l : List Char) (h : ∀ x ∈ l, isPySpace x = true) :
    ∀ x ∈ normalizeWs l, x = ' ' := by
  intro x hx
  unfold normalizeWs at hx
  obtain ⟨y, hy, hxy⟩ := List.mem_map.mp hx
  rw [← hxy, if_pos (h y hy)]

/-- C10: a non-empty original line consisting only of whitespace characters
contributes zero wrapped lines (it is dropped from the sequence), unlike a
truly empty line, which contributes exactly one empty wrapped line. -/
theorem whitespace_only_line_dropped (width : ℕ) (l : List Char)
    (hne : l ≠ []) (hws : ∀ c ∈ l, isPySpace c = true) :
    wrapLine width l = [] ∧ wrapLine width [] = [[]] := by
  constructor
  · unfold wrapLine
    rw [if_neg hne]
    unfold textwrap_wrap
    have hnw : ∀ x ∈ normalizeWs l, x = ' ' := normalizeWs_all_space l hws
    have hnne : normalizeWs l ≠ [] := by
      unfold normalizeWs
      simpa using hne
    rw [chunkify_all_space (normalizeWs l) hnne hnw]
    apply wrapChunks_ws_single
    rw [isWsChunk, List.all_eq_true]
    intro x hx
    simpa using hnw x hx
  · rfl

/-- C10 witness: two spaces vanish from the wrapped sequence while the empty
line survives. -/
theorem whitespace_only_line_dropped_witness :
    ([' ', ' '] : List Char) ≠ [] ∧
    (∀ c ∈ ([' ', ' '] : List Char), isPySpace c = true) ∧
    (wrapLine 40 [' ', ' '] = [] ∧ wrapLine 40 [] = [[]]) :=
  ⟨by decide, by decide,
    whitespace_only_line_dropped 40 [' ', ' '] (by decide) (by decide)⟩

/-- Division/modulus step when a column is completed. -/
theorem succ_div_mod_wrap (k lpc : ℕ) (hlpc : 0 < lpc) (h : k % lpc + 1 = lpc) :
    (k + 1) / lpc = k / lpc + 1 ∧ (k + 1) % lpc = 0 := by
  have hdm := Nat.div_add_mod k lpc
  have hk : k + 1 = lpc * (k / lpc + 1) := by
    rw [Nat.mul_succ]
    generalize hX : lpc * (k / lpc) = X at hdm ⊢
    omega
  constructor
  · rw [hk, Nat.mul_div_cancel_left _ hlpc]
  · rw [hk, Nat.mul_mod_right]

/-- Division/modulus step inside a column. -/
theorem succ_div_mod_nowrap (k lpc : ℕ) (hlpc : 0 < lpc) (h : k % lpc + 1 < lpc) :
    (k + 1) / lpc = k / lpc ∧ (k + 1) % lpc = k % lpc + 1 := by
  have hdm := Nat.div_add_mod k lpc
  have hk : k + 1 = lpc * (k / lpc) + (k % lpc + 1) := by
    generalize hX : lpc * (k / lpc) = X at hdm ⊢
    omega
  constructor
  · rw [hk, Nat.mul_add_div hlpc, Nat.div_eq_of_lt h, Nat.add_zero]
  · rw [hk, Nat.mul_add_mod, Nat.mod_eq_of_lt h]

/-- The loop state update realizes the closed form: after `k` drawn lines the
state is `stateAt k`, and one more drawn line moves it to `stateAt (k+1)`. -/
theorem drawStep_stateAt (lpc : ℕ) (lw lh P : ℚ) (hlpc : 1 ≤ lpc) (k : ℕ) :
    drawStep lpc lw lh P (stateAt lpc lw lh P k) = stateAt lpc lw lh P (k + 1) := by
  have hmod : k % lpc < lpc := Nat.mod_lt _ (by omega)
  unfold drawStep stateAt
  dsimp only
  by_cases hcase : k % lpc + 1 = lpc
  · obtain ⟨hd, hm⟩ := succ_div_mod_wrap k lpc (by omega) hcase
    rw [if_pos (by omega)]
    rw [hd, hm, DrawState.mk.injEq]
    refine ⟨?_, ?_, rfl⟩
    · push_cast
      ring
    · push_cast
      ring
  · obtain ⟨hd, hm⟩ := succ_div_mod_nowrap k lpc (by omega) (by omega)
    rw [if_neg (by omega)]
    rw [hd, hm, DrawState.mk.injEq]
    refine ⟨rfl, ?_, rfl⟩
    push_cast
    ring

/-- The drawing loop draws exactly the wrapped lines, in order. -/
theorem placeLines_map_fst (lpc : ℕ) (lw lh P : ℚ) :
    ∀ (lines : List (List Char)) (s : DrawState),
      (placeLines lpc lw lh P lines s).map (fun pl => pl.1) = lines := by
  intro lines
  induction lines with
  | nil => intro s; rfl
  | cons l rest ih =>
      intro s
      simp [placeLines, ih]

/-- Index formula for the drawing loop started after `k` drawn lines. -/
theorem placeLines_get (lpc : ℕ) (lw lh P : ℚ) (hlpc : 1 ≤ lpc) :
    ∀ (lines : List (List Char)) (k i : ℕ), i < lines.length →
      (placeLines lpc lw lh P lines (stateAt lpc lw lh P k))[i]? =
        (lines[i]?).map (fun l =>
          (l, (((k + i) / lpc : ℕ) : ℚ) * (lw + P) + P,
              (((k + i) % lpc : ℕ) : ℚ) * lh + P)) := by
  intro lines
  induction lines with
  | nil => intro k i hi; simp at hi
  | cons l rest ih =>
      intro k i hi
      cases i with
      | zero => simp [placeLines, stateAt]
      | succ j =>
          have hj : j < rest.length := by
            simp only [List.length_cons] at hi
            omega
          simp only [placeLines]
          rw [drawStep_stateAt lpc lw lh P hlpc k]
          rw [List.getElem?_cons_succ, List.getElem?_cons_succ]
          have hidx := ih (k + 1) j hj
          rw [show k + 1 + j = k + (j + 1) by omega] at hidx
          exact hidx

/-- C6: the drawing loop of `text_to_image` places the line of sequential
index `i` in column `i / linesPerColumn` at row `i % linesPerColumn`, at
pixel position `x = column * (lineWidth + padding) + padding` and
`y = row * lineHeight + padding` (column-major fill), with no line skipped,
duplicated, or reordered. -/
theorem grid_positioner_correct (lines : List (List Char)) (cols : ℕ) (lw lh P : ℚ)
    (hc : 1 ≤ cols) (hne : lines ≠ []) :
    (placeLines (linesPerColumn lines.length cols) lw lh P lines (drawInit P)).map
        (fun pl => pl.1) = lines ∧
    ∀ i, i < lines.length →
      (placeLines (linesPerColumn lines.length cols) lw lh P lines (drawInit P))[i]? =
        (lines[i]?).map (fun l =>
          (l, ((i / linesPerColumn lines.length cols : ℕ) : ℚ) * (lw + P) + P,
              ((i % linesPerColumn lines.length cols : ℕ) : ℚ) * lh + P)) := by
  have hlen : 1 ≤ lines.length := by
    cases lines with
    | nil => exact absurd rfl hne
    | cons _ _ => simp
  have hlpc : 1 ≤ linesPerColumn lines.length cols := lpc_pos _ _ hlen hc
  have hinit : drawInit P = stateAt (linesPerColumn lines.length cols) lw lh P 0 := by
    unfold drawInit stateAt
    simp
  constructor
  · exact placeLines_map_fst _ lw lh P lines (drawInit P)
  · intro i hi
    rw [hinit]
    have hfin := placeLines_get (linesPerColumn lines.length cols) lw lh P hlpc lines 0 i hi
    simpa using hfin

/-- C6 witness: 7 lines in 3 columns give `linesPerColumn = 3`; with
`lineWidth = 3`, `lineHeight = 2`, `padding = 10` the placement formula holds
at every index (line 0 at column 0 row 0, line 3 at column 1 row 0, line 6
at column 2 row 0). -/
theorem grid_positioner_correct_witness :
    (1 : ℕ) ≤ 3 ∧
    ([['a'], ['b'], ['c'], ['d'], ['e'], ['f'], ['g']] : List (List Char)) ≠ [] ∧
    (((placeLines (linesPerColumn 7 3) 3 2 10
        [['a'], ['b'], ['c'], ['d'], ['e'], ['f'], ['g']] (drawInit 10)).map
          (fun pl => pl.1) =
        [['a'], ['b'], ['c'], ['d'], ['e'], ['f'], ['g']]) ∧
      ∀ i, i < (7 : ℕ) →
        (placeLines (linesPerColumn 7 3) 3 2 10
            [['a'], ['b'], ['c'], ['d'], ['e'], ['f'], ['g']] (drawInit 10))[i]? =
          (([['a'], ['b'], ['c'], ['d'], ['e'], ['f'], ['g']] : List (List Char))[i]?).map
            (fun l =>
              (l, ((i / linesPerColumn 7 3 : ℕ) : ℚ) * (3 + 10) + 10,
                  ((i % linesPerColumn 7 3 : ℕ) : ℚ) * 2 + 10))) :=
  ⟨by decide, by decide,
    grid_positioner_correct [['a'], ['b'], ['c'], ['d'], ['e'], ['f'], ['g']] 3 3 2 10
      (by decide) (by decide)⟩
